import Mathlib

/-!
Verification development for the tui-spectrum terminal spectrum visualizer
(`src/main.c`).  The C program is shallowly embedded: float arithmetic is
idealized over `ℚ`, the external collaborators (FFT, complex magnitude
`cabsf`, `logf`, the `rand()` glyph source) are parameters, and the global
mutable buffers become explicit state values.  C `int` arithmetic is `ℤ`
(all divisions and remainders in the program are applied to nonnegative
operands, where C truncated division agrees with Euclidean division).
-/

namespace TuiSpectrum

/-- `NUM_SAMPLES` (`src/main.c:19`): capacity of the sample ring buffer and
FFT size. -/
def NUM_SAMPLES : ℕ := 2048

/-- `Y_SCALE` (`src/main.c:20`): vertical scale factor of the display. -/
def Y_SCALE : ℚ := 8

/-! ## Sample ring buffer (`sampleBuffer` / `sampleIndex`, `src/main.c:38-39`) -/

/-- State of the global sample ring buffer: the sample store `buf` (slots
`0 .. N-1`; modelled as a total function, only indices below the capacity are
ever read or written) and the write cursor `idx` (`sampleIndex`). -/
structure SampleBuffer where
  buf : ℕ → ℚ
  idx : ℕ

/-- Initial state: `sampleBuffer` is zero-initialized and `sampleIndex = 0`
(`src/main.c:38-39`). -/
def initBuffer : SampleBuffer := ⟨fun _ => 0, 0⟩

/-- One iteration of the `StreamProcessor` loop body (`src/main.c:172-173`):
store a sample at the cursor, then advance the cursor modulo the capacity. -/
def pushSample (N : ℕ) (b : SampleBuffer) (s : ℚ) : SampleBuffer :=
  ⟨fun j => if j = b.idx then s else b.buf j, (b.idx + 1) % N⟩

/-- Push a list of samples in order, one `pushSample` each. -/
def pushList (N : ℕ) (b : SampleBuffer) (xs : List ℚ) : SampleBuffer :=
  xs.foldl (pushSample N) b

/-- `StreamProcessor` (`src/main.c:168-176`): for each of `frameCount` frames
of the interleaved source buffer `data`, store `data[i * numChannels]` (the
channel-0 sample of frame `i`) at the cursor and advance the cursor modulo
`N`.  The semaphore guard is not modelled: the claims are about the
sequential effect of one call. -/
def StreamProcessor (N : ℕ) (b : SampleBuffer) (data : ℕ → ℚ)
    (frameCount numChannels : ℕ) : SampleBuffer :=
  (List.range frameCount).foldl
    (fun acc i => pushSample N acc (data (i * numChannels))) b

/-- The render-loop snapshot (`memcpy` at `src/main.c:78`): the buffer
contents in storage order, as a length-`N` list. -/
def snapshot (N : ℕ) (b : SampleBuffer) : List ℚ :=
  (List.range N).map b.buf

/-! ## Magnitude smoothing (`src/main.c:85-89`) -/

/-- One frame of the per-bin smoothing update (`src/main.c:87`):
`sig_abs[i] = 0.1f * sig_abs[i] + 0.9f * sig_old[i]`, float coefficients
idealized as `1/10` and `9/10`. -/
def smoothFrame (mag old : ℕ → ℚ) : ℕ → ℚ :=
  fun i => (1/10) * mag i + (9/10) * old i

/-- Smoothed state after `k` frames of a constant input magnitude `m` at every
bin, starting from the zero state (`sig_old` starts zero-initialized,
`src/main.c:69`). -/
def constStates (m : ℚ) : ℕ → ℕ → ℚ
  | 0 => fun _ => 0
  | k + 1 => smoothFrame (fun _ => m) (constStates m k)

/-- One pass of the magnitude-and-smoothing loop (`src/main.c:85-89`) given
the frequency-domain signal `fd` (output of the external `fft`) and the
external complex-magnitude collaborator `cabs` (`cabsf`): the new
`sig_abs` = `sig_old` array. -/
def smoothPass (cabs : ℚ × ℚ → ℚ) (fd : ℕ → ℚ × ℚ) (old : ℕ → ℚ) : ℕ → ℚ :=
  smoothFrame (fun i => cabs (fd i)) old

/-! ## Column-to-bin mapping and rotation (`src/main.c:93-101`) -/

/-- Bin selection for a terminal column (`src/main.c:95`):
`idx = round(NUM_SAMPLES * (float) i / (float) t.cols)`, float arithmetic
idealized over `ℚ`; `round` rounds half away from zero, which on the
nonnegative values produced here coincides with Mathlib's `round`. -/
def binIdx (N cols c : ℕ) : ℤ :=
  round ((N * c : ℚ) / cols)

/-- Display-column rotation (`src/main.c:101`): `x = (i + t.cols/2) % t.cols`.
Both operands are nonnegative in the program, where C truncated division and
remainder agree with `ℤ`'s `/` and `%`. -/
def colX (cols i : ℤ) : ℤ :=
  (i + cols / 2) % cols

/-- C float-to-int conversion truncates toward zero. -/
def truncQ (x : ℚ) : ℤ :=
  if 0 ≤ x then ⌊x⌋ else ⌈x⌉

/-- The per-column cutoff row (`src/main.c:96-98`):
`max = t.rows - (logmag * Y_SCALE)` with `logmag = logf(fmax(sig_abs[idx], 1.f))`,
where `lg` is the external `logf` collaborator and `m` the smoothed magnitude
at the selected bin; the float result is truncated toward zero by the
assignment to `int max`. -/
def topRow (rows : ℤ) (lg : ℚ → ℚ) (m : ℚ) : ℤ :=
  truncQ ((rows : ℚ) - lg (max m 1) * Y_SCALE)

/-! ## Terminal grid (`src/main.c:23-27, 120-151`) -/

/-- `Terminal` (`src/main.c:23-27`): dimensions and the character matrix,
modelled as a total function `buf row col`; only cells with
`0 ≤ row < rows` and `0 ≤ col < cols` are ever read or written. -/
structure Terminal where
  rows : ℤ
  cols : ℤ
  buf : ℤ → ℤ → Char

/-- `TerminalWrite` (`src/main.c:148-151`): set cell `(x, y)` to `c` when in
range, otherwise do nothing. -/
def TerminalWrite (t : Terminal) (x y : ℤ) (c : Char) : Terminal :=
  if x < 0 ∨ x ≥ t.cols ∨ y < 0 ∨ y ≥ t.rows then t
  else { t with buf := fun y' x' => if y' = y ∧ x' = x then c else t.buf y' x' }

/-- `TerminalClear` (`src/main.c:141-146`): set every in-range cell to a
space (the per-row NUL terminator is a serialization detail, not a cell). -/
def TerminalClear (t : Terminal) : Terminal :=
  { t with buf := fun y x =>
      if 0 ≤ y ∧ y < t.rows ∧ 0 ≤ x ∧ x < t.cols then ' ' else t.buf y x }

/-- `TerminalCreate` (`src/main.c:120-132`): take the queried window size
verbatim (no validation), allocate the matrix with unspecified contents
`junk`, and clear it.  There is no rejection path: whatever `ioctl` reports,
including zero, becomes the grid size. -/
def TerminalCreate (junk : ℤ → ℤ → Char) (wsRow wsCol : ℤ) : Terminal :=
  TerminalClear ⟨wsRow, wsCol, junk⟩

/-! ## Per-frame drawing (`src/main.c:92-106`) -/

/-- The inner marking loop `for (y = t.rows-1; y > max; y--)`
(`src/main.c:99-105`): `n` is the remaining iteration count, `y` the current
row, `x` the (already rotated) display column, and `ch` the glyph source (the
`rand()` collaborator, indexed by row). -/
def drawLoop (ch : ℤ → Char) (x : ℤ) : ℕ → ℤ → Terminal → Terminal
  | 0, _, t => t
  | n + 1, y, t => drawLoop ch x n (y - 1) (TerminalWrite t x y (ch y))

/-- One column-loop body (`src/main.c:99-105`) with the cutoff `mx` already
computed: run the marking loop from row `t.rows - 1` down to (exclusive)
`mx`; the loop executes `t.rows - 1 - mx` times when that is positive and
zero times otherwise. -/
def drawColumn (t : Terminal) (ch : ℤ → Char) (x mx : ℤ) : Terminal :=
  drawLoop ch x (t.rows - 1 - mx).toNat (t.rows - 1) t

/-- The per-frame display pass (`src/main.c:92-106`): clear the grid, then
for each column `i` in `[0, t.cols)` select the bin `binIdx`, compute the
cutoff row from the smoothed magnitudes `sabs` with the `logf` collaborator
`lg`, and mark the column at its rotated position `colX`, glyphs supplied by
`ch` (indexed by column and row). -/
def renderFrame (t : Terminal) (lg : ℚ → ℚ) (ch : ℤ → ℤ → Char)
    (sabs : ℕ → ℚ) : Terminal :=
  (List.range t.cols.toNat).foldl
    (fun acc (i : ℕ) =>
      drawColumn acc (ch (i : ℤ)) (colX t.cols (i : ℤ))
        (topRow t.rows lg (sabs (binIdx NUM_SAMPLES t.cols.toNat i).toNat)))
    (TerminalClear t)

/-! ## Startup (`src/main.c:41-63`) -/

/-- Outcome of the startup portion of `main`: either an early `return code`,
or entry into the render loop with the created terminal. -/
inductive StartupResult where
  | exit (code : ℤ) : StartupResult
  | proceed (t : Terminal) : StartupResult

/-- The startup portion of `main` (`src/main.c:41-63`): fewer than two
arguments returns 0; the terminal is created unconditionally from the queried
window size; an unavailable audio device or a failed stream load returns 1;
otherwise execution proceeds into the render loop.  No check of the terminal
size occurs anywhere on this path. -/
def mainStartup (argc : ℕ) (junk : ℤ → ℤ → Char) (wsRow wsCol : ℤ)
    (deviceReady loadOk : Bool) : StartupResult :=
  if argc < 2 then .exit 0
  else
    let t := TerminalCreate junk wsRow wsCol
    if !deviceReady then .exit 1
    else if !loadOk then .exit 1
    else .proceed t

/-! ## Theorems -/

/-- C1: the per-bin smoothing update is
`state[i] = 0.1 * magnitude[i] + 0.9 * state[i]` (so alpha = 0.1); for a
constant input magnitude `m` applied for `k` consecutive frames from zero
state, every bin's state after `k` frames equals `m * (1 - (1 - 0.1)^k)`;
for `m = 4.0` the state is within `0.001` of `1.638` after 5 frames and
within `0.001` of `3.98` after 50 frames. -/
theorem smoothing_closed_form :
    (∀ mag old : ℕ → ℚ, ∀ i, smoothFrame mag old i = (1/10) * mag i + (9/10) * old i)
    ∧ (∀ (m : ℚ) (k i : ℕ), constStates m k i = m * (1 - (1 - 1/10) ^ k))
    ∧ |constStates 4 5 0 - 1638/1000| < 1/1000
    ∧ |constStates 4 50 0 - 398/100| < 1/1000 := by
  have closed : ∀ (m : ℚ) (k i : ℕ), constStates m k i = m * (1 - (1 - 1/10) ^ k) := by
    intro m k
    induction k with
    | zero => intro i; simp [constStates]
    | succ k ih =>
        intro i
        simp only [constStates, smoothFrame, ih]
        ring
  refine ⟨fun _ _ _ => rfl, closed, ?_, ?_⟩
  · rw [closed 4 5 0, abs_sub_lt_iff]
    constructor <;> norm_num
  · rw [closed 4 50 0, abs_sub_lt_iff]
    constructor <;> norm_num

/-- C4: the selected frequency bin for terminal column `c` is
`round(N * c / cols)`; with `N = 2048` and `cols = 80`, column 0 maps to
bin 0 and column 79 maps to bin 2022. -/
theorem bin_mapping (cols c : ℕ) :
    binIdx NUM_SAMPLES cols c = round ((2048 * c : ℚ) / cols)
    ∧ binIdx 2048 80 0 = 0
    ∧ binIdx 2048 80 79 = 2022 := by
  refine ⟨?_, ?_, ?_⟩
  · norm_num [binIdx, NUM_SAMPLES]
  · norm_num [binIdx, round_eq]
  · norm_num [binIdx, round_eq]

/-- C6: `TerminalWrite t x y c` sets cell `(x, y)` to `c` when
`0 ≤ x < cols` and `0 ≤ y < rows` (leaving all other cells unchanged), and
for every out-of-range `(x, y)` it returns the grid unchanged; in particular
writes at `x = -1` and `x = cols` are no-ops. -/
theorem terminal_write_bounds (t : Terminal) (x y : ℤ) (c : Char) :
    (0 ≤ x → x < t.cols → 0 ≤ y → y < t.rows →
      (TerminalWrite t x y c).buf y x = c
      ∧ ∀ y' x', ¬(y' = y ∧ x' = x) → (TerminalWrite t x y c).buf y' x' = t.buf y' x')
    ∧ ((x < 0 ∨ x ≥ t.cols ∨ y < 0 ∨ y ≥ t.rows) → TerminalWrite t x y c = t)
    ∧ TerminalWrite t (-1) 0 c = t
    ∧ TerminalWrite t t.cols 0 c = t := by
  refine ⟨?_, ?_, ?_, ?_⟩
  · intro hx1 hx2 hy1 hy2
    have hin : ¬(x < 0 ∨ x ≥ t.cols ∨ y < 0 ∨ y ≥ t.rows) := by
      push_neg
      exact ⟨hx1, hx2, hy1, hy2⟩
    constructor
    · simp [TerminalWrite, hin]
    · intro y' x' hne
      simp [TerminalWrite, hin, hne]
  · intro hout
    simp [TerminalWrite, hout]
  · have hout : (-1 : ℤ) < 0 ∨ (-1 : ℤ) ≥ t.cols ∨ (0 : ℤ) < 0 ∨ (0 : ℤ) ≥ t.rows :=
      Or.inl (by norm_num)
    simp [TerminalWrite, hout]
  · have hout : t.cols < 0 ∨ t.cols ≥ t.cols ∨ (0 : ℤ) < 0 ∨ (0 : ℤ) ≥ t.rows :=
      Or.inr (Or.inl le_rfl)
    simp [TerminalWrite, hout]

/-- Witness for C6: on a concrete 24×80 grid an in-range write stores the
character. -/
theorem terminal_write_bounds_witness :
    (TerminalWrite (Terminal.mk 24 80 fun _ _ => ' ') 3 2 'x').buf 2 3 = 'x' :=
  ((terminal_write_bounds (Terminal.mk 24 80 fun _ _ => ' ') 3 2 'x').1
    (by decide) (by decide) (by decide) (by decide)).1

/-- The cursor stays below the capacity. -/
lemma pushSample_idx_lt (N : ℕ) (hN : 0 < N) (b : SampleBuffer) (s : ℚ) :
    (pushSample N b s).idx < N :=
  Nat.mod_lt _ hN

/-- After pushing a list, the cursor has advanced by the list length,
modulo the capacity. -/
lemma pushList_idx (N : ℕ) (hN : 0 < N) :
    ∀ (xs : List ℚ) (b : SampleBuffer), b.idx < N →
      (pushList N b xs).idx = (b.idx + xs.length) % N := by
  intro xs
  induction xs with
  | nil =>
      intro b hb
      simp [pushList, Nat.mod_eq_of_lt hb]
  | cons s rest ih =>
      intro b hb
      have h1 : (pushSample N b s).idx < N := pushSample_idx_lt N hN b s
      have h2 := ih (pushSample N b s) h1
      rw [pushList, List.foldl_cons]
      rw [pushList] at h2
      rw [h2, pushSample]
      simp only [List.length_cons]
      rw [Nat.mod_add_mod]
      ring_nf

/-- If two buffers have the same cursor and agree on every slot that the
incoming samples will not overwrite, pushing the same list yields buffers
agreeing on every slot below the capacity. -/
lemma pushList_buf_congr (N : ℕ) (hN : 0 < N) :
    ∀ (xs : List ℚ) (b1 b2 : SampleBuffer), b1.idx < N → b1.idx = b2.idx →
      (∀ j, j < N → (∀ i, i < xs.length → (b1.idx + i) % N ≠ j) → b1.buf j = b2.buf j) →
      ∀ j, j < N → (pushList N b1 xs).buf j = (pushList N b2 xs).buf j := by
  intro xs
  induction xs with
  | nil =>
      intro b1 b2 hlt hidx hagree j hj
      exact hagree j hj (fun i hi => absurd hi (Nat.not_lt_zero i))
  | cons s rest ih =>
      intro b1 b2 hlt hidx hagree j hj
      show (pushList N (pushSample N b1 s) rest).buf j
        = (pushList N (pushSample N b2 s) rest).buf j
      have h1 : (pushSample N b1 s).idx < N := pushSample_idx_lt N hN b1 s
      have h2 : (pushSample N b1 s).idx = (pushSample N b2 s).idx := by
        simp [pushSample, hidx]
      have h3 : ∀ j, j < N →
          (∀ i, i < rest.length → ((pushSample N b1 s).idx + i) % N ≠ j) →
          (pushSample N b1 s).buf j = (pushSample N b2 s).buf j := by
        intro j hj hnone
        by_cases hje : j = b1.idx
        · simp [pushSample, hje, hidx]
        · have hb : b1.buf j = b2.buf j := by
            apply hagree j hj
            intro i hi
            match i with
            | 0 =>
                rw [Nat.add_zero, Nat.mod_eq_of_lt hlt]
                exact fun h => hje h.symm
            | i' + 1 =>
                have : (b1.idx + (i' + 1)) % N = ((pushSample N b1 s).idx + i') % N := by
                  simp only [pushSample]
                  rw [Nat.mod_add_mod]
                  ring_nf
                rw [this]
                exact hnone i' (by simpa [Nat.succ_lt_succ_iff] using hi)
          simp [pushSample, hje, hidx ▸ hje, hb]
      exact ih (pushSample N b1 s) (pushSample N b2 s) h1 h2 h3 j hj

/-- Pushing at least `N` samples touches every slot: every residue below `N`
is reached from any starting cursor below `N`. -/
lemma slot_coverage (N : ℕ) (hN : 0 < N) (c : ℕ) (hc : c < N) (len : ℕ)
    (hlen : N ≤ len) (j : ℕ) (hj : j < N) :
    ∃ i, i < len ∧ (c + i) % N = j := by
  refine ⟨(j + N - c) % N, lt_of_lt_of_le (Nat.mod_lt _ hN) hlen, ?_⟩
  have hle : c ≤ j + N := le_trans (le_of_lt hc) (Nat.le_add_left N j)
  calc (c + (j + N - c) % N) % N
      = (c + (j + N - c)) % N := by rw [Nat.add_mod_mod]
    _ = (j + N) % N := by rw [Nat.add_sub_cancel' hle]
    _ = j := by rw [Nat.add_mod_right, Nat.mod_eq_of_lt hj]

/-- C2: ring-buffer circularity.  For capacity `N`, writing a sequence of
`2N` samples one at a time into the fresh ring buffer and snapshotting
yields exactly the same `N`-element array as writing only the final `N`
samples of the sequence into a fresh buffer (cursor 0): the buffer holds
exactly the last `N` writes, wrap-consistent. -/
theorem ring_buffer_circularity (N : ℕ) (hN : 0 < N) (xs : List ℚ)
    (hlen : xs.length = 2 * N) :
    snapshot N (pushList N initBuffer xs)
      = snapshot N (pushList N initBuffer (List.drop N xs)) := by
  have hsplit : pushList N initBuffer xs
      = pushList N (pushList N initBuffer (List.take N xs)) (List.drop N xs) := by
    simp only [pushList]
    rw [← List.foldl_append, List.take_append_drop]
  have htake : (List.take N xs).length = N := by
    rw [List.length_take]
    omega
  have hidx0 : (initBuffer : SampleBuffer).idx < N := hN
  have hidx1 : (pushList N initBuffer (List.take N xs)).idx = 0 := by
    rw [pushList_idx N hN _ _ hidx0, htake]
    show (0 + N) % N = 0
    simp
  have hdrop : (List.drop N xs).length = N := by
    rw [List.length_drop]
    omega
  have hbuf : ∀ j, j < N →
      (pushList N (pushList N initBuffer (List.take N xs)) (List.drop N xs)).buf j
        = (pushList N initBuffer (List.drop N xs)).buf j := by
    apply pushList_buf_congr N hN
    · rw [hidx1]; exact hN
    · rw [hidx1]; rfl
    · intro j hj hnone
      exfalso
      obtain ⟨i, hi1, hi2⟩ :=
        slot_coverage N hN (pushList N initBuffer (List.take N xs)).idx
          (by rw [hidx1]; exact hN) (List.drop N xs).length (by rw [hdrop]) j hj
      exact hnone i hi1 hi2
  rw [hsplit]
  unfold snapshot
  apply List.map_congr_left
  intro j hj
  exact hbuf j (List.mem_range.mp hj)

/-- Witness for C2: capacity 3, the six samples `[1,2,3,4,5,6]` leave the
same snapshot as just `[4,5,6]`. -/
theorem ring_buffer_circularity_witness :
    0 < 3 ∧ snapshot 3 (pushList 3 initBuffer [1, 2, 3, 4, 5, 6])
      = snapshot 3 (pushList 3 initBuffer (List.drop 3 [1, 2, 3, 4, 5, 6])) :=
  ⟨by decide, ring_buffer_circularity 3 (by decide) [1, 2, 3, 4, 5, 6] (by decide)⟩

/-- C3: one `StreamProcessor` call with `frameCount` interleaved frames of
`numChannels` channels appends exactly the channel-0 sample of each frame,
in frame order, through the cursor-advancing push; and its result depends
only on the channel-0 samples `data (i * numChannels)`, so no sample from
any other channel is stored. -/
theorem stream_processor_channel0 (N : ℕ) (b : SampleBuffer)
    (d1 d2 : ℕ → ℚ) (frameCount numChannels : ℕ) :
    StreamProcessor N b d1 frameCount numChannels
      = pushList N b ((List.range frameCount).map fun i => d1 (i * numChannels))
    ∧ ((∀ i, i < frameCount → d1 (i * numChannels) = d2 (i * numChannels)) →
        StreamProcessor N b d1 frameCount numChannels
          = StreamProcessor N b d2 frameCount numChannels) := by
  have key : ∀ d : ℕ → ℚ, StreamProcessor N b d frameCount numChannels
      = pushList N b ((List.range frameCount).map fun i => d (i * numChannels)) := by
    intro d
    rw [pushList, List.foldl_map]
    rfl
  refine ⟨key d1, fun hagree => ?_⟩
  rw [key d1, key d2]
  congr 1
  apply List.map_congr_left
  intro i hi
  exact hagree i (List.mem_range.mp hi)

/-- Witness for C3: two data buffers differing only away from the channel-0
positions produce the same buffer state. -/
theorem stream_processor_channel0_witness :
    StreamProcessor 4 initBuffer (fun _ => (1 : ℚ)) 2 2
      = StreamProcessor 4 initBuffer (fun j => if j = 1 then 5 else (1 : ℚ)) 2 2 :=
  (stream_processor_channel0 4 initBuffer (fun _ => (1 : ℚ))
    (fun j => if j = 1 then 5 else (1 : ℚ)) 2 2).2 (by decide)

/-- Rounding a nonnegative rational gives a nonnegative integer. -/
lemma round_nonneg_of_nonneg (x : ℚ) (h : 0 ≤ x) : 0 ≤ round x := by
  rw [round_eq]
  positivity

/-- Rounding a rational at most `M - 1` stays below `M`. -/
lemma round_lt_of_le (x : ℚ) (M : ℤ) (h : x ≤ (M : ℚ) - 1) : round x < M := by
  rw [round_eq]
  have h2 : (⌊x + 1/2⌋ : ℚ) ≤ x + 1/2 := Int.floor_le _
  have h3 : (⌊x + 1/2⌋ : ℚ) < (M : ℚ) := by linarith
  exact_mod_cast h3

/-- C9: implicit bin-index bounds.  For every capacity `N ≥ 1`, terminal
width `cols` with `1 ≤ cols ≤ N` and column `c < cols`, the computed bin
index `round(N * c / cols)` lies in `[0, N)`, so the magnitude-array access
is in bounds; and the precondition `cols ≤ N` is required: at `N = 2048`,
`cols = 4096`, column 4095 the index is `2048`, out of bounds. -/
theorem bin_index_bounds :
    (∀ N cols c : ℕ, 0 < N → 0 < cols → cols ≤ N → c < cols →
      0 ≤ binIdx N cols c ∧ binIdx N cols c < (N : ℤ))
    ∧ binIdx 2048 4096 4095 = 2048 := by
  constructor
  · intro N cols c hN hcols hcN hc
    have hcolsQ : (0 : ℚ) < (cols : ℚ) := by exact_mod_cast hcols
    constructor
    · apply round_nonneg_of_nonneg
      positivity
    · apply round_lt_of_le
      rw [div_le_iff₀ hcolsQ]
      have hnat : N * c + cols ≤ N * cols := by
        calc N * c + cols ≤ N * c + N := by omega
          _ = N * (c + 1) := by ring
          _ ≤ N * cols := Nat.mul_le_mul_left N hc
      have hq : (N : ℚ) * c + cols ≤ (N : ℚ) * cols := by exact_mod_cast hnat
      push_cast
      linarith
  · norm_num [binIdx, round_eq]

/-- Witness for C9: at `N = 2048`, `cols = 80`, `c = 79` the index is in
`[0, 2048)`. -/
theorem bin_index_bounds_witness :
    0 ≤ binIdx 2048 80 79 ∧ binIdx 2048 80 79 < ((2048 : ℕ) : ℤ) :=
  bin_index_bounds.1 2048 80 79 (by decide) (by decide) (by decide) (by decide)

/-- C10: implicit rotation injectivity.  For every `cols ≥ 1` the
display-column map `c ↦ (c + cols/2) % cols` is a bijection on `[0, cols)`:
it is injective there, and every display column in `[0, cols)` is hit by
exactly the columns it maps from. -/
theorem rotation_bijective (cols : ℤ) (hcols : 1 ≤ cols) :
    (∀ c1 c2, 0 ≤ c1 → c1 < cols → 0 ≤ c2 → c2 < cols →
      colX cols c1 = colX cols c2 → c1 = c2)
    ∧ (∀ x, 0 ≤ x → x < cols → ∃ c, 0 ≤ c ∧ c < cols ∧ colX cols c = x) := by
  constructor
  · intro c1 c2 h1 h2 h3 h4 heq
    unfold colX at heq
    have hzero : (c1 - c2) % cols = 0 := by
      rw [show c1 - c2 = (c1 + cols / 2) - (c2 + cols / 2) by ring,
        Int.sub_emod, heq, sub_self, Int.zero_emod]
    have hdvd : cols ∣ c1 - c2 := Int.dvd_of_emod_eq_zero hzero
    have : c1 - c2 = 0 := Int.eq_zero_of_abs_lt_dvd hdvd (by rw [abs_lt]; omega)
    omega
  · intro x hx1 hx2
    refine ⟨(x - cols / 2) % cols, Int.emod_nonneg _ (by omega),
      Int.emod_lt_of_pos _ (by omega), ?_⟩
    unfold colX
    rw [Int.emod_add_emod, sub_add_cancel, Int.emod_eq_of_lt hx1 hx2]

/-- Witness for C10: with `cols = 80` display column 0 is reached from a
spectrum column in `[0, 80)`. -/
theorem rotation_bijective_witness :
    ∃ c, 0 ≤ c ∧ c < 80 ∧ colX 80 c = 0 :=
  (rotation_bijective 80 (by decide)).2 0 (by decide) (by decide)

/-- `TerminalWrite` never changes the row count. -/
lemma TerminalWrite_rows (t : Terminal) (x y : ℤ) (c : Char) :
    (TerminalWrite t x y c).rows = t.rows := by
  unfold TerminalWrite
  split <;> rfl

/-- `TerminalWrite` never changes the column count. -/
lemma TerminalWrite_cols (t : Terminal) (x y : ℤ) (c : Char) :
    (TerminalWrite t x y c).cols = t.cols := by
  unfold TerminalWrite
  split <;> rfl

/-- Cell contents after the marking loop: starting at row `y` with `n`
iterations left and an in-range column `x`, an in-range cell `(X, Y)` holds
the glyph for its row exactly when `X = x` and `y - n < Y ≤ y`, and is
otherwise untouched. -/
lemma drawLoop_buf (ch : ℤ → Char) (x : ℤ) :
    ∀ (n : ℕ) (y : ℤ) (t : Terminal), 0 ≤ x → x < t.cols →
      ∀ Y X : ℤ, 0 ≤ Y → Y < t.rows →
        (drawLoop ch x n y t).buf Y X
          = if X = x ∧ y - n < Y ∧ Y ≤ y then ch Y else t.buf Y X := by
  intro n
  induction n with
  | zero =>
      intro y t hx1 hx2 Y X hY1 hY2
      rw [drawLoop]
      split_ifs with h
      · exfalso
        obtain ⟨-, h2, h3⟩ := h
        omega
      · rfl
  | succ n ih =>
      intro y t hx1 hx2 Y X hY1 hY2
      rw [drawLoop]
      rw [ih (y - 1) (TerminalWrite t x y (ch y)) hx1
        (by rw [TerminalWrite_cols]; exact hx2) Y X hY1
        (by rw [TerminalWrite_rows]; exact hY2)]
      by_cases hy : 0 ≤ y ∧ y < t.rows
      · have hin : ¬(x < 0 ∨ x ≥ t.cols ∨ y < 0 ∨ y ≥ t.rows) := by
          push_neg
          exact ⟨hx1, hx2, hy.1, hy.2⟩
        have hwrite : (TerminalWrite t x y (ch y)).buf Y X
            = if Y = y ∧ X = x then ch y else t.buf Y X := by
          simp [TerminalWrite, hin]
        rw [hwrite]
        split_ifs with h1 h2 h3 h4 h5 <;> try rfl
        all_goals try (exfalso; omega)
        all_goals simp_all
      · have hout : x < 0 ∨ x ≥ t.cols ∨ y < 0 ∨ y ≥ t.rows := by
          rcases not_and_or.mp hy with h | h
          · exact Or.inr (Or.inr (Or.inl (by omega)))
          · exact Or.inr (Or.inr (Or.inr (by omega)))
        have hid : TerminalWrite t x y (ch y) = t := by
          simp [TerminalWrite, hout]
        rw [hid]
        split_ifs with h1 h2 h3 <;> try rfl
        all_goals (exfalso; omega)

/-- Cell contents after one column's marking pass: an in-range cell `(X, Y)`
holds the glyph for its row exactly when `X` is the column's display column
and `Y` lies strictly above the cutoff `mx`, and is otherwise untouched. -/
lemma drawColumn_buf (t : Terminal) (ch : ℤ → Char) (x mx : ℤ)
    (hx1 : 0 ≤ x) (hx2 : x < t.cols) (Y X : ℤ) (hY1 : 0 ≤ Y) (hY2 : Y < t.rows) :
    (drawColumn t ch x mx).buf Y X
      = if X = x ∧ mx < Y then ch Y else t.buf Y X := by
  rw [drawColumn,
    drawLoop_buf ch x ((t.rows - 1 - mx).toNat) (t.rows - 1) t hx1 hx2 Y X hY1 hY2]
  have hiff : (X = x ∧ (t.rows - 1) - ((t.rows - 1 - mx).toNat : ℤ) < Y ∧ Y ≤ t.rows - 1)
      ↔ (X = x ∧ mx < Y) := by
    constructor
    · rintro ⟨hXx, h1, h2⟩
      exact ⟨hXx, by omega⟩
    · rintro ⟨hXx, h1⟩
      exact ⟨hXx, by omega, by omega⟩
  simp only [hiff]

/-- C5: center rotation.  The cells computed for spectrum column `i` are
drawn at display column `colX t.cols i = (i + cols/2) % cols`, and within
the grid the column's marked cells run from row `rows - 1` down to but not
including `topRow t.rows lg m` (the truncation of
`rows - Y_SCALE * log(max m 1)` with the external `logf` collaborator `lg`);
with `cols = 80` the DC bin (column 0) is drawn at display column 40. -/
theorem center_rotation (t : Terminal) (ch : ℤ → Char) (lg : ℚ → ℚ) (m : ℚ)
    (i : ℤ) (hi1 : 0 ≤ i) (hi2 : i < t.cols) (Y X : ℤ)
    (hY1 : 0 ≤ Y) (hY2 : Y < t.rows) :
    (drawColumn t ch (colX t.cols i) (topRow t.rows lg m)).buf Y X
      = (if X = colX t.cols i ∧ topRow t.rows lg m < Y then ch Y else t.buf Y X)
    ∧ colX 80 0 = 40 := by
  have hc : 0 < t.cols := lt_of_le_of_lt hi1 hi2
  have hx1 : 0 ≤ colX t.cols i := by
    unfold colX
    exact Int.emod_nonneg _ (by omega)
  have hx2 : colX t.cols i < t.cols := by
    unfold colX
    exact Int.emod_lt_of_pos _ hc
  exact ⟨drawColumn_buf t ch _ _ hx1 hx2 Y X hY1 hY2, by decide⟩

/-- Witness for C5: on a concrete 3×80 grid, spectrum column 0 with cutoff
below the bottom row marks the cell at row 2, display column 40. -/
theorem center_rotation_witness :
    (drawColumn (Terminal.mk 3 80 fun _ _ => ' ') (fun _ => 'A') (colX 80 0)
        (topRow 3 (fun _ => 1) 5)).buf 2 40
      = (if (40 : ℤ) = colX 80 0 ∧ topRow 3 (fun _ => 1) 5 < 2
          then 'A' else (Terminal.mk 3 80 fun _ _ => ' ').buf 2 40) :=
  (center_rotation (Terminal.mk 3 80 fun _ _ => ' ') (fun _ => 'A') (fun _ => 1) 5 0
    (by decide) (by decide) 2 40 (by decide) (by decide)).1

/-- Truncation toward zero of an integer value is that integer. -/
lemma truncQ_intCast (z : ℤ) : truncQ (z : ℚ) = z := by
  unfold truncQ
  split <;> simp

/-- With a `logf` collaborator sending 1 to 0, a zero magnitude puts the
cutoff row at `rows`, below the loop's starting row. -/
lemma topRow_of_zero (rows : ℤ) (lg : ℚ → ℚ) (hlg : lg 1 = 0) :
    topRow rows lg 0 = rows := by
  unfold topRow
  rw [max_eq_right (by norm_num : (0 : ℚ) ≤ 1), hlg]
  have harg : (rows : ℚ) - 0 * Y_SCALE = ((rows : ℤ) : ℚ) := by ring
  rw [harg, truncQ_intCast]

/-- A column pass whose cutoff is at `rows` marks nothing. -/
lemma drawColumn_at_rows (t acc : Terminal) (ch : ℤ → Char) (x : ℤ)
    (hacc : acc.rows = t.rows) :
    drawColumn acc ch x t.rows = acc := by
  unfold drawColumn
  rw [hacc]
  have hn : (t.rows - 1 - t.rows).toNat = 0 := by omega
  rw [hn]
  rfl

/-- A frame rendered from the all-zero smoothed state is exactly the cleared
grid. -/
lemma renderFrame_silent (t : Terminal) (lg : ℚ → ℚ) (ch : ℤ → ℤ → Char)
    (hlg : lg 1 = 0) :
    renderFrame t lg ch (fun _ => 0) = TerminalClear t := by
  unfold renderFrame
  have hfold : ∀ (l : List ℕ) (acc : Terminal), acc.rows = t.rows →
      l.foldl
        (fun acc (i : ℕ) =>
          drawColumn acc (ch (i : ℤ)) (colX t.cols (i : ℤ))
            (topRow t.rows lg ((fun _ => (0 : ℚ)) (binIdx NUM_SAMPLES t.cols.toNat i).toNat)))
        acc = acc := by
    intro l
    induction l with
    | nil => intro acc hacc; rfl
    | cons j l' ih =>
        intro acc hacc
        rw [List.foldl_cons]
        have hstep : drawColumn acc (ch (j : ℤ)) (colX t.cols (j : ℤ))
            (topRow t.rows lg ((fun _ => (0 : ℚ)) (binIdx NUM_SAMPLES t.cols.toNat j).toNat))
            = acc := by
          rw [show ((fun _ => (0 : ℚ)) (binIdx NUM_SAMPLES t.cols.toNat j).toNat) = (0 : ℚ) from rfl,
            topRow_of_zero t.rows lg hlg]
          exact drawColumn_at_rows t acc _ _ hacc
        rw [hstep]
        exact ih acc hacc
  exact hfold (List.range t.cols.toNat) (TerminalClear t) rfl

/-- C8: silence scenario.  If the external transform sends the all-zero
time-domain signal to the all-zero frequency-domain signal (and `cabsf`,
`logf` behave as on those exact values: `cabs (0,0) = 0`, `lg 1 = 0`), then
the magnitude is 0 at every bin, the smoothed state from zero state remains
0 at every bin, and the rendered frame is exactly the cleared grid — every
in-range cell is a space. -/
theorem silence_blank (fft : (ℕ → ℚ) → ℕ → ℚ × ℚ) (cabs : ℚ × ℚ → ℚ)
    (lg : ℚ → ℚ) (t : Terminal) (ch : ℤ → ℤ → Char)
    (hfft : ∀ i, fft (fun _ => 0) i = (0, 0)) (hcabs : cabs (0, 0) = 0)
    (hlg : lg 1 = 0) :
    (∀ i, cabs (fft (fun _ => 0) i) = 0)
    ∧ (∀ i, smoothPass cabs (fft (fun _ => 0)) (fun _ => 0) i = 0)
    ∧ renderFrame t lg ch (smoothPass cabs (fft (fun _ => 0)) (fun _ => 0))
        = TerminalClear t
    ∧ (∀ Y X : ℤ, 0 ≤ Y → Y < t.rows → 0 ≤ X → X < t.cols →
        (renderFrame t lg ch (smoothPass cabs (fft (fun _ => 0)) (fun _ => 0))).buf Y X = ' ') := by
  have hmag : ∀ i, cabs (fft (fun _ => 0) i) = 0 := by
    intro i
    rw [hfft i, hcabs]
  have hstate : ∀ i, smoothPass cabs (fft (fun _ => 0)) (fun _ => 0) i = 0 := by
    intro i
    simp only [smoothPass, smoothFrame]
    rw [hmag i]
    ring
  have hfun : smoothPass cabs (fft (fun _ => 0)) (fun _ => 0) = fun _ => 0 :=
    funext hstate
  have hrender : renderFrame t lg ch (smoothPass cabs (fft (fun _ => 0)) (fun _ => 0))
      = TerminalClear t := by
    rw [hfun]
    exact renderFrame_silent t lg ch hlg
  refine ⟨hmag, hstate, hrender, ?_⟩
  intro Y X hY1 hY2 hX1 hX2
  rw [hrender]
  simp [TerminalClear, hY1, hY2, hX1, hX2]

/-- Witness for C8: a concrete 2×2 grid filled with junk comes out all
spaces when the zero transform is rendered. -/
theorem silence_blank_witness :
    (renderFrame (Terminal.mk 2 2 fun _ _ => 'z') (fun _ => 0) (fun _ _ => 'A')
        (smoothPass (fun _ => (0 : ℚ)) (fun _ : ℕ => ((0 : ℚ), (0 : ℚ)))
          (fun _ => 0))).buf 0 0 = ' ' :=
  (silence_blank (fun _ _ => ((0 : ℚ), (0 : ℚ))) (fun _ => (0 : ℚ)) (fun _ => 0)
    (Terminal.mk 2 2 fun _ _ => 'z') (fun _ _ => 'A')
    (fun _ => rfl) rfl rfl).2.2.2 0 0 (by decide) (by decide) (by decide) (by decide)

/-- C7 counterexample: with both reported dimensions zero, an available
audio device and a successfully loaded file, startup does not exit with a
non-zero code: it proceeds into the render loop with the zero-sized
terminal.  The code contains no terminal-size validation. -/
theorem zero_size_not_rejected :
    mainStartup 2 (fun _ _ => ' ') 0 0 true true
      = StartupResult.proceed (TerminalCreate (fun _ _ => ' ') 0 0)
    ∧ mainStartup 2 (fun _ _ => ' ') 0 0 true true ≠ StartupResult.exit 1 := by
  constructor
  · rfl
  · intro h
    simp [mainStartup] at h

/-- C7 amended: the program performs no validation of a zero terminal size;
startup with `cols = rows = 0` proceeds into the render loop, and there the
per-frame column loop runs zero iterations (so the bin-selection expression,
whose divisor is `cols`, is never evaluated) and every frame leaves the grid
exactly cleared. -/
theorem zero_size_unvalidated (junk : ℤ → ℤ → Char) (lg : ℚ → ℚ)
    (ch : ℤ → ℤ → Char) (sabs : ℕ → ℚ) :
    mainStartup 2 junk 0 0 true true
      = StartupResult.proceed (TerminalCreate junk 0 0)
    ∧ renderFrame (TerminalCreate junk 0 0) lg ch sabs
      = TerminalClear (TerminalCreate junk 0 0) :=
  ⟨rfl, rfl⟩

end TuiSpectrum
